import Mathlib

/-!
Verification of the audio-signal-lab signal-processing pipeline.

The JavaScript sources under `src/js` are shallowly embedded here:
numbers become real numbers, `Float32Array` buffers become `List ℝ`,
integer-typed arrays become `List ℤ`, and `Math.random()` becomes an
explicit stream of values passed as a function argument.  Each embedded
definition mirrors the control flow of the corresponding source function.
-/

namespace AudioLab

noncomputable section

open scoped BigOperators

/-- `clamp` from `src/js/utils.js`: `(x, lo, hi) => Math.min(hi, Math.max(lo, x))`. -/
def clamp (x lo hi : ℝ) : ℝ := min hi (max lo x)

/-- Integer variant of `clamp`, used where the JS code clamps an integer value. -/
def clampZ (x lo hi : ℤ) : ℤ := min hi (max lo x)

/-- JS `String.prototype.startsWith`, expressed on the character data of the
strings. -/
def strStartsWith (s pre : String) : Bool := pre.data.isPrefixOf s.data

/-- The roll-off applied to a harmonic amplitude in `buildPeriodicWave`
(`src/js/audio-engine.js`): above 80% of Nyquist the amplitude is linearly
attenuated, reaching zero at Nyquist. -/
def rollOff (amp freq ny : ℝ) : ℝ :=
  if freq > ny * 0.8 then amp * max 0 (1 - (freq - ny * 0.8) / (ny * 0.2)) else amp

/-- `kMax` from `buildPeriodicWave`:
`limitHarmonics ? Math.max(1, Math.floor(maxFreq / Math.max(1, f0))) : 256`
with `maxFreq = (sr/2) * 0.9`. -/
def kMaxOf (sr f0 : ℝ) (limitHarmonics : Bool) : ℕ :=
  if limitHarmonics then (max 1 ⌊(sr / 2 * 0.9) / max 1 f0⌋).toNat else 256

/-- The odd loop indices `n = 1, 3, 5, …, ≤ kMax` of the square/triangle loops. -/
def oddRange (kMax : ℕ) : List ℕ :=
  (List.range (kMax + 1)).filter (fun n => n % 2 = 1)

/-- The harmonic (index, amplitude) pairs accumulated by the `switch` in
`buildPeriodicWave` for one shape, in loop order.  The square branch keeps a
harmonic only when `amplitude > 0`; the triangle and sawtooth branches only
when `Math.abs(amplitude) > 0.00001`; sine and unknown shapes add the single
harmonic `(1, 1.0)`. -/
def harmonicList (shape : String) (f0 sr : ℝ) (kMax : ℕ) : List (ℕ × ℝ) :=
  if shape = "sine" then [(1, 1)]
  else if shape = "square" then
    (oddRange kMax).filterMap (fun (n : ℕ) =>
      let amp := rollOff (4 / Real.pi * (1 / (n : ℝ))) ((n : ℝ) * f0) (sr / 2)
      if 0 < amp then some (n, amp) else none)
  else if shape = "triangle" then
    (oddRange kMax).filterMap (fun (n : ℕ) =>
      let s : ℝ := if ((n - 1) / 2) % 2 = 0 then 1 else -1
      let amp := rollOff (8 / (Real.pi * Real.pi) * s * (1 / ((n : ℝ) * (n : ℝ))))
        ((n : ℝ) * f0) (sr / 2)
      if 0.00001 < |amp| then some (n, amp) else none)
  else if shape = "sawtooth" then
    (List.range' 1 kMax).filterMap (fun (n : ℕ) =>
      let s : ℝ := if (n + 1) % 2 = 0 then 1 else -1
      let amp := rollOff (2 / Real.pi * s * (1 / (n : ℝ))) ((n : ℝ) * f0) (sr / 2)
      if 0.00001 < |amp| then some (n, amp) else none)
  else [(1, 1)]

/-- The real/imaginary coefficient tables produced by `buildPeriodicWave`,
as functions from the harmonic index, together with the allocated array size
`Math.max(kMax + 1, 8192)`. -/
structure Spectrum where
  re : ℕ → ℝ
  im : ℕ → ℝ
  size : ℕ

/-- `buildPeriodicWave(ctx, shape, f0, phaseDeg, limitHarmonics)` from
`src/js/audio-engine.js` (the `ctx` argument is replaced by its sample rate).
`addHarm(k, A)` performs `real[k] += A*cos(phi); imag[k] += A*sin(phi)`, so the
coefficient at index `k` is the sum of `A·cos φ` (resp. `A·sin φ`) over the
accumulated harmonic list entries with index `k`. -/
def buildPeriodicWave (sr : ℝ) (shape : String) (f0 phaseDeg : ℝ)
    (limitHarmonics : Bool) : Spectrum :=
  let kMax := kMaxOf sr f0 limitHarmonics
  let phi := phaseDeg * Real.pi / 180
  let hl := harmonicList shape f0 sr kMax
  { re := fun k => ((hl.filter (fun p => p.1 = k)).map (fun p => p.2 * Real.cos phi)).sum
    im := fun k => ((hl.filter (fun p => p.1 = k)).map (fun p => p.2 * Real.sin phi)).sum
    size := max (kMax + 1) 8192 }

/-- The per-sample μ-law encoding performed inside the μ-law loop of
`quantizeBuffer` (`src/js/audio-engine.js`): clamp to `[-1, 1]`, compand with
`y = sign · log(1 + 255|x|) / log(1 + 255)`, then `ulaw[i] = clamp(round((y+1)·127.5), 0, 255)`. -/
def muLawEncode (x0 : ℝ) : ℤ :=
  let x := clamp x0 (-1) 1
  let s : ℝ := if x < 0 then -1 else 1
  let y := s * (Real.log (1 + 255 * |x|) / Real.log (1 + 255))
  clampZ (round ((y + 1) * 127.5)) 0 255

/-- `signMuLawInverse(y, mu)` from `src/js/audio-engine.js`. -/
def signMuLawInverse (y mu : ℝ) : ℝ :=
  let s : ℝ := if y < 0 then -1 else 1
  let ay := |y|
  clamp (s * (((1 + mu) ^ ay - 1) / mu)) (-1) 1

/-- The per-sample μ-law decoding in `quantizeBuffer`:
`yDec = ulaw[i]/127.5 - 1; xRec = signMuLawInverse(yDec, 255)`. -/
def muLawDecode (b : ℤ) : ℝ := signMuLawInverse ((b : ℝ) / 127.5 - 1) 255

/-- The options object destructured by `quantizeBuffer`. -/
structure QuantOpts where
  bits : ℤ
  dither : Bool
  compression : String

/-- The record returned by `quantizeBuffer`. -/
structure QuantResult where
  qFloat : List ℝ
  errFloat : List ℝ
  pcm : List ℤ
  encLabel : String
  ulaw : Option (List ℤ)

/-- Storing an integer into a JS `Int8Array`/`Int16Array`/`Int32Array` wraps it
into the signed range of the given bit width. -/
def wrapInt (width : ℕ) (q : ℤ) : ℤ :=
  (q + 2 ^ (width - 1)) % 2 ^ width - 2 ^ (width - 1)

/-- The storage width chosen by `quantizeBuffer`:
`Int8Array` for 8 bits, `Int16Array` for 16, otherwise `Int32Array`. -/
def pcmWidth (bits : ℤ) : ℕ := if bits = 8 then 8 else if bits = 16 then 16 else 32

/-- The post-dither value `v` of sample `i` in the linear-PCM loop of
`quantizeBuffer`.  `Math.random()` draws are supplied by the stream `rand`;
sample `i` consumes draws `2i` and `2i+1` (TPDF dither adds
`(rand() + rand() - 1) * step` and re-clamps). -/
def pcmDitheredValue (xs : List ℝ) (bits : ℤ) (dither : Bool) (rand : ℕ → ℝ)
    (i : ℕ) : ℝ :=
  let peak : ℝ := 2 ^ (bits - 1) - 1
  let step : ℝ := 1 / peak
  let v := clamp (xs.getD i 0) (-1) 1
  if dither then clamp (v + (rand (2 * i) + rand (2 * i + 1) - 1) * step) (-1) 1 else v

/-- The integer code `q = Math.round(v * peak)` of sample `i` in the
linear-PCM loop of `quantizeBuffer`. -/
def pcmCode (xs : List ℝ) (bits : ℤ) (dither : Bool) (rand : ℕ → ℝ) (i : ℕ) : ℤ :=
  round (pcmDitheredValue xs bits dither rand i * ((2 : ℝ) ^ (bits - 1) - 1))

/-- `quantizeBuffer(xFloat, {bits, dither, compression})` from
`src/js/audio-engine.js`.  The source never throws, so both branches return
`Except.ok`; the `Except` wrapper only makes a hypothetical failure
expressible.  The μ-law branch runs when `compression.startsWith('μ')`. -/
def quantizeBuffer (xs : List ℝ) (o : QuantOpts) (rand : ℕ → ℝ) :
    Except String QuantResult :=
  if strStartsWith o.compression "μ" then
    Except.ok
      { qFloat := xs.map (fun x => muLawDecode (muLawEncode x))
        errFloat := xs.map (fun x => clamp x (-1) 1 - muLawDecode (muLawEncode x))
        pcm := xs.map muLawEncode
        encLabel := "μ-law8"
        ulaw := some (xs.map muLawEncode) }
  else
    let peak : ℝ := 2 ^ (o.bits - 1) - 1
    Except.ok
      { qFloat := (List.range xs.length).map
          (fun i => (pcmCode xs o.bits o.dither rand i : ℝ) / peak)
        errFloat := (List.range xs.length).map
          (fun i => pcmDitheredValue xs o.bits o.dither rand i -
            (pcmCode xs o.bits o.dither rand i : ℝ) / peak)
        pcm := (List.range xs.length).map
          (fun i => wrapInt (pcmWidth o.bits) (pcmCode xs o.bits o.dither rand i))
        encLabel := toString o.bits ++ "-bit PCM"
        ulaw := none }

/-- `computeSNR(x, y)` from `src/js/audio-engine.js`: accumulate
`pSig += x[i]²` and `pErr += (x[i]-y[i])²` over `i < x.length`, return
`Infinity` when `pErr ≤ 1e-20`, else `10·log10(pSig/pErr)`. -/
def computeSNR (x y : List ℝ) : EReal :=
  let p := (List.range x.length).foldl
    (fun (acc : ℝ × ℝ) i =>
      let s := x.getD i 0
      let e := x.getD i 0 - y.getD i 0
      (acc.1 + s * s, acc.2 + e * e)) (0, 0)
  if p.2 ≤ 1e-20 then ⊤ else ((10 * Real.logb 10 (p.1 / p.2) : ℝ) : EReal)

/-- The output length `Nout = Math.floor((q.length / fsIn) * fsOut)` of
`reconstructDAC`. -/
def dacNout (len : ℕ) (fsIn fsOut : ℝ) : ℕ :=
  (⌊(len : ℝ) / fsIn * fsOut⌋).toNat

/-- The source index `n0 = Math.floor((i / fsOut) * fsIn)` read by
`reconstructDAC` for output sample `i`. -/
def dacIndex (i : ℕ) (fsIn fsOut : ℝ) : ℤ :=
  ⌊(i : ℝ) / fsOut * fsIn⌋

/-- `reconstructDAC(q, fsIn, fsOut, methodLabel)` from
`src/js/audio-engine.js`.  Linear interpolation is selected when the method
label starts with `"Linear"`; an out-of-range source index yields silence. -/
def reconstructDAC (q : List ℝ) (fsIn fsOut : ℝ) (methodLabel : String) : List ℝ :=
  let linear := strStartsWith methodLabel "Linear"
  (List.range (dacNout q.length fsIn fsOut)).map (fun (i : ℕ) =>
    let n : ℝ := (i : ℝ) / fsOut * fsIn
    let n0 := dacIndex i fsIn fsOut
    let frac := n - (n0 : ℝ)
    if n0 < 0 ∨ (q.length : ℤ) ≤ n0 then 0
    else if ¬ linear ∨ n0 = (q.length : ℤ) - 1 then q.getD n0.toNat 0
    else q.getD n0.toNat 0 * (1 - frac) + q.getD (n0.toNat + 1) 0 * frac)

/-- `onePoleLowpass(x, fs, cutoff)` from `src/js/audio-engine.js`. -/
def onePoleLowpass (x : List ℝ) (fs cutoff : ℝ) : List ℝ :=
  let dt := 1 / fs
  let RC := 1 / (2 * Real.pi * cutoff)
  let alpha := dt / (RC + dt)
  (x.foldl (fun (st : ℝ × List ℝ) xi =>
    let p := st.1 + alpha * (xi - st.1)
    (p, p :: st.2)) (0, [])).2.reverse

/-- `generateADSR(length, sampleRate, {attack, decay, sustain, release})` from
`src/js/utils.js`, expressed as the value of the envelope at index `i`.  The
JS code fills the attack, decay, sustain and release segments sequentially
(the sustain segment has `max 0 (length - attack - decay - release)` samples);
entries beyond the filled segments keep their initial value `0`. -/
def adsrEnvelope (length : ℕ) (sr attack decay sustain release : ℝ) (i : ℕ) : ℝ :=
  let aS := (⌊attack * sr⌋).toNat
  let dS := (⌊decay * sr⌋).toNat
  let rS := (⌊release * sr⌋).toNat
  let sS := ((length : ℤ) - aS - dS - rS).toNat
  if i < aS then (i : ℝ) / (aS : ℝ)
  else if i < aS + dS then 1 - (1 - sustain) * (((i - aS : ℕ) : ℝ) / (dS : ℝ))
  else if i < aS + dS + sS then sustain
  else if i < aS + dS + sS + rS then
    sustain * (1 - ((i - (aS + dS + sS) : ℕ) : ℝ) / (rS : ℝ))
  else 0

/-- The fixed harmonic table of `createPianoSound` (ratio, amplitude). -/
def pianoHarmonics : List (ℕ × ℝ) :=
  [(1, 1.0), (2, 0.5), (3, 0.3), (4, 0.2), (5, 0.15), (6, 0.1), (7, 0.08), (8, 0.05)]

/-- `createPianoSound(ctx, frequency, duration, amplitude)` from
`src/js/audio-engine.js`: additive harmonics with stretched tuning
`freq · 1.0003^ratio`, shaped by a piano ADSR envelope and the headroom
scalar `0.3`.  No randomness is involved. -/
def createPianoSound (sr frequency duration amplitude : ℝ) : List ℝ :=
  let samples := (⌊duration * sr⌋).toNat
  (List.range samples).map (fun (i : ℕ) =>
    let t := (i : ℝ) / sr
    let sample := (pianoHarmonics.map (fun h =>
      h.2 * Real.sin (2 * Real.pi * (frequency * (h.1 : ℝ) * (1.0003 : ℝ) ^ h.1) * t))).sum
    sample * adsrEnvelope samples sr 0.005 0.1 0.3 0.5 i * amplitude * 0.3)

/-- The fixed harmonic table of `createViolinSound` (ratio, amplitude). -/
def violinHarmonics : List (ℕ × ℝ) :=
  [(1, 1.0), (2, 0.45), (3, 0.3), (4, 0.25), (5, 0.18),
   (6, 0.12), (7, 0.08), (8, 0.06), (9, 0.04), (10, 0.03)]

/-- `createViolinSound(ctx, frequency, duration, amplitude)` from
`src/js/audio-engine.js`.  The `Math.random()` draws are supplied by the
stream `rand`: draw `j < 10` is the phase offset of harmonic `j`
(`rand j * 2π`), and draw `10 + i` is the bow-noise sample used when
`t < 0.1` at sample `i` (one draw per such sample, in order). -/
def createViolinSound (sr frequency duration amplitude : ℝ) (rand : ℕ → ℝ) : List ℝ :=
  let samples := (⌊duration * sr⌋).toNat
  (List.range samples).map (fun (i : ℕ) =>
    let t := (i : ℝ) / sr
    let vibEnv := min 1 (t * 10)
    let vib := 1 + 0.002 * vibEnv * Real.sin (2 * Real.pi * 4.5 * t)
    let harm := ((List.range violinHarmonics.length).map (fun j =>
      let h := violinHarmonics.getD j (0, 0)
      h.2 * Real.sin (2 * Real.pi * (frequency * (h.1 : ℝ) * vib) * t +
        rand j * (2 * Real.pi)))).sum
    let noisy := if t < 0.1 then harm + (rand (10 + i) - 0.5) * 0.02 * (1 - t * 10)
      else harm
    noisy * adsrEnvelope samples sr 0.08 0.1 0.7 0.3 i * amplitude * 0.4)

/-- One wave entry of the list passed to `renderOfflineFromWaves`. -/
structure WaveSpec where
  type : String
  amp : ℝ
  freq : ℝ
  phaseDeg : ℝ

/-- The optional filter argument of `renderOfflineFromWaves`. -/
structure FilterSpec where
  type : String
  cutoff : ℝ

/-- Modelled from the spec: the browser's `OscillatorNode` driven by a custom
`PeriodicWave` is not repository code; per §4.3 the oscillator is driven by
the harmonic spectrum of `buildPeriodicWave`, so its sample at time `t` is
the additive synthesis of the stored real/imaginary coefficients at the
oscillator frequency `f`. -/
def oscSample (S : Spectrum) (f t : ℝ) : ℝ :=
  ∑ k ∈ Finset.range S.size,
    (S.re k * Real.cos (2 * Real.pi * (k : ℝ) * f * t) +
     S.im k * Real.sin (2 * Real.pi * (k : ℝ) * f * t))

/-- Modelled from the spec: the browser's `BiquadFilterNode` is not repository
code; per §4.3 the optional filter is "a standard 2nd-order resonant filter
(Q≈0.707)", here the standard audio-cookbook biquad with the source's
`Q = 0.707`, run causally with zero initial state. -/
def biquadFilter (ftype : String) (cutoff fs : ℝ) (xs : List ℝ) : List ℝ :=
  let w := 2 * Real.pi * cutoff / fs
  let cw := Real.cos w
  let alpha := Real.sin w / (2 * 0.707)
  let b0 := if ftype = "highpass" then (1 + cw) / 2 else (1 - cw) / 2
  let b1 := if ftype = "highpass" then -(1 + cw) else 1 - cw
  let b2 := b0
  let a0 := 1 + alpha
  let a1 := -2 * cw
  let a2 := 1 - alpha
  (xs.foldl (fun (st : (ℝ × ℝ × ℝ × ℝ) × List ℝ) x =>
    let x1 := st.1.1
    let x2 := st.1.2.1
    let y1 := st.1.2.2.1
    let y2 := st.1.2.2.2
    let y := (b0 * x + b1 * x1 + b2 * x2 - a1 * y1 - a2 * y2) / a0
    ((x, x1, y, y1), y :: st.2)) ((0, 0, 0, 0), [])).2.reverse

/-- The per-output-sample contribution of one wave in
`renderOfflineFromWaves`.  Waves with `amp ≤ 0` are skipped.  Piano and
violin voices are buffer sources with `loop = true` (piano additionally
`loopEnd = 1.0`, i.e. it retriggers every second of output; the looping
playback itself is browser behaviour, modelled from spec §4.3).  Standard
shapes drive an oscillator (frequency clamped to `[1, sr/2 - 1]`) with the
periodic wave built from the unclamped frequency, scaled by a gain of
`w.amp`. -/
def waveVoice (sr duration : ℝ) (antiAlias : Bool) (w : WaveSpec)
    (rand : ℕ → ℝ) (i : ℕ) : ℝ :=
  if w.amp ≤ 0 then 0
  else if w.type = "piano" then
    let buf := createPianoSound sr w.freq duration w.amp
    buf.getD (i % max 1 (⌊1.0 * sr⌋).toNat) 0
  else if w.type = "violin" then
    let buf := createViolinSound sr w.freq duration w.amp rand
    buf.getD (i % max 1 buf.length) 0
  else
    let S := buildPeriodicWave sr w.type w.freq w.phaseDeg antiAlias
    let f := clamp w.freq 1 (sr / 2 - 1)
    w.amp * oscSample S f ((i : ℝ) / sr)

/-- `renderOfflineFromWaves({duration, sampleRate, waves, antiAliasMaxHarmonics,
filter})` from `src/js/audio-engine.js`.  The offline context has
`ceil(duration * sampleRate)` frames; all voices are mixed by summation; an
optional lowpass/highpass filter (cutoff `clamp(cutoff || 18000, 10,
sampleRate/2 - 10)`, a falsy `0` cutoff falling back to `18000`) is applied
to the mix.  Randomness (used only by the violin voice) is supplied per wave
index by `rand`. -/
def renderOfflineFromWaves (duration sampleRate : ℝ) (waves : List WaveSpec)
    (antiAliasMaxHarmonics : Bool) (filter : Option FilterSpec)
    (rand : ℕ → ℕ → ℝ) : List ℝ :=
  let N := (⌈duration * sampleRate⌉).toNat
  let mixed := (List.range N).map (fun (i : ℕ) =>
    (waves.enum.map (fun jw =>
      waveVoice sampleRate duration antiAliasMaxHarmonics jw.2 (rand jw.1) i)).sum)
  match filter with
  | some f =>
    if f.type = "lowpass" ∨ f.type = "highpass" then
      biquadFilter f.type
        (clamp (if f.cutoff = 0 then 18000 else f.cutoff) 10 (sampleRate / 2 - 10))
        sampleRate mixed
    else mixed
  | none => mixed

/-! ### Claim C1: band limiting of `buildPeriodicWave` -/

/-- Every harmonic index occurring in `harmonicList` lies in `[1, kMax]`
(provided `1 ≤ kMax`, which `kMaxOf` always guarantees). -/
lemma harmonicList_index_le {shape : String} {f0 sr : ℝ} {kMax : ℕ}
    (hk : 1 ≤ kMax) {p : ℕ × ℝ} (hp : p ∈ harmonicList shape f0 sr kMax) :
    1 ≤ p.1 ∧ p.1 ≤ kMax := by
  unfold harmonicList at hp
  split_ifs at hp with h1 h2 h3 h4
  all_goals first
    | · simp only [List.mem_singleton] at hp
        subst hp
        exact ⟨le_refl 1, hk⟩
    | · obtain ⟨n, hn, hfn⟩ := List.mem_filterMap.mp hp
        simp only [oddRange, List.mem_filter, List.mem_range, List.mem_range'_1,
          decide_eq_true_eq] at hn
        simp only [Option.ite_none_right_eq_some, Option.some.injEq] at hfn
        obtain ⟨-, hpe⟩ := hfn
        have h1n : p.1 = n := by rw [← hpe]
        rw [h1n]
        omega

/-- `kMaxOf` with `limitHarmonics = true` is always at least 1. -/
lemma one_le_kMaxOf (sr f0 : ℝ) : 1 ≤ kMaxOf sr f0 true := by
  have h : kMaxOf sr f0 true = (max 1 ⌊sr / 2 * 0.9 / max 1 f0⌋).toNat := rfl
  rw [h]
  have h1 : (1 : ℤ) ≤ max 1 ⌊sr / 2 * 0.9 / max 1 f0⌋ := le_max_left _ _
  exact_mod_cast Int.toNat_le_toNat h1

/-- A nonzero real or imaginary coefficient of the built spectrum comes from
a harmonic-list entry with that index. -/
lemma spectrum_support {sr : ℝ} {shape : String} {f0 phaseDeg : ℝ}
    {limitHarmonics : Bool} {k : ℕ}
    (h : (buildPeriodicWave sr shape f0 phaseDeg limitHarmonics).re k ≠ 0 ∨
      (buildPeriodicWave sr shape f0 phaseDeg limitHarmonics).im k ≠ 0) :
    ∃ p ∈ harmonicList shape f0 sr (kMaxOf sr f0 limitHarmonics), p.1 = k := by
  by_contra hcon
  push_neg at hcon
  have hfil : (harmonicList shape f0 sr (kMaxOf sr f0 limitHarmonics)).filter
      (fun p => p.1 = k) = [] := by
    rw [List.filter_eq_nil_iff]
    intro p hp
    simpa using hcon p hp
  rcases h with h | h <;>
  · apply h
    simp only [buildPeriodicWave]
    rw [hfil]
    simp

/-- Claim C1 (amended): with `limitHarmonics = true`, whenever `max 1 f0` is at
most `0.9 × Nyquist`, every harmonic `k` carrying a nonzero coefficient in the
spectrum built by `buildPeriodicWave` satisfies `k·f0 ≤ 0.9 × (sr/2)`.  (The
claim's unrestricted version fails when the fundamental itself exceeds
`0.9 × Nyquist`; see the counterexample.) -/
theorem buildPeriodicWave_band_limited (shape : String)
    (hshape : shape ∈ ["sine", "square", "triangle", "sawtooth"])
    (f0 sr phaseDeg : ℝ) (hf0 : 0 < f0)
    (hrange : max 1 f0 ≤ 0.9 * (sr / 2)) (k : ℕ)
    (hk : (buildPeriodicWave sr shape f0 phaseDeg true).re k ≠ 0 ∨
      (buildPeriodicWave sr shape f0 phaseDeg true).im k ≠ 0) :
    (k : ℝ) * f0 ≤ 0.9 * (sr / 2) := by
  obtain ⟨p, hp, hpk⟩ := spectrum_support hk
  obtain ⟨-, hle⟩ := harmonicList_index_le (one_le_kMaxOf sr f0) hp
  rw [hpk] at hle
  set m : ℝ := max 1 f0 with hm
  have hm1 : (1 : ℝ) ≤ m := le_max_left _ _
  have hm0 : (0 : ℝ) < m := lt_of_lt_of_le one_pos hm1
  have hc : m ≤ sr / 2 * 0.9 := by linarith [hrange]
  have hdiv : (1 : ℝ) ≤ sr / 2 * 0.9 / m := (one_le_div hm0).mpr hc
  have hfl : (1 : ℤ) ≤ ⌊sr / 2 * 0.9 / m⌋ := by
    exact_mod_cast Int.le_floor.mpr (by exact_mod_cast hdiv)
  have hkMax : kMaxOf sr f0 true = (⌊sr / 2 * 0.9 / m⌋).toNat := by
    have h : kMaxOf sr f0 true = (max 1 ⌊sr / 2 * 0.9 / max 1 f0⌋).toNat := rfl
    rw [h, ← hm, max_eq_right hfl]
  rw [hkMax] at hle
  have hkZ : (k : ℤ) ≤ ⌊sr / 2 * 0.9 / m⌋ := by omega
  have hkR : (k : ℝ) ≤ sr / 2 * 0.9 / m :=
    le_trans (by exact_mod_cast hkZ) (Int.floor_le _)
  have hkm : (k : ℝ) * m ≤ sr / 2 * 0.9 := (le_div_iff₀ hm0).mp hkR
  have hf0m : f0 ≤ m := le_max_right _ _
  have : (k : ℝ) * f0 ≤ (k : ℝ) * m :=
    mul_le_mul_of_nonneg_left hf0m (Nat.cast_nonneg k)
  linarith

/-- The sine branch with zero phase puts coefficient `1` on harmonic 1. -/
lemma sine_re_one (sr f0 : ℝ) :
    (buildPeriodicWave sr "sine" f0 0 true).re 1 = 1 := by
  simp [buildPeriodicWave, harmonicList, List.filter]

/-- Claim C1 counterexample: for shape `sine`, `f0 = 4000`, `sampleRate = 8000`
(so `0.9 × Nyquist = 3600 < f0`), harmonic 1 carries a nonzero coefficient yet
`1 × 4000 > 0.9 × (8000/2)`: the claim as stated is false. -/
theorem buildPeriodicWave_band_limited_cex :
    ((buildPeriodicWave 8000 "sine" 4000 0 true).re 1 ≠ 0 ∨
      (buildPeriodicWave 8000 "sine" 4000 0 true).im 1 ≠ 0) ∧
    ¬ ((1 : ℝ) * 4000 ≤ 0.9 * (8000 / 2)) := by
  constructor
  · left
    rw [sine_re_one]
    norm_num
  · norm_num

/-- Witness for the amended C1 theorem at shape `sine`, `f0 = 440`,
`sampleRate = 8000`, harmonic `k = 1`. -/
theorem buildPeriodicWave_band_limited_witness :
    ("sine" ∈ ["sine", "square", "triangle", "sawtooth"]) ∧
    (0 : ℝ) < 440 ∧ max 1 (440 : ℝ) ≤ 0.9 * (8000 / 2) ∧
    ((buildPeriodicWave 8000 "sine" 440 0 true).re 1 ≠ 0 ∨
      (buildPeriodicWave 8000 "sine" 440 0 true).im 1 ≠ 0) ∧
    ((1 : ℕ) : ℝ) * 440 ≤ 0.9 * (8000 / 2) := by
  have hne : (buildPeriodicWave 8000 "sine" 440 0 true).re 1 ≠ 0 ∨
      (buildPeriodicWave 8000 "sine" 440 0 true).im 1 ≠ 0 := by
    left
    rw [sine_re_one]
    norm_num
  exact ⟨by simp, by norm_num, by norm_num, hne,
    buildPeriodicWave_band_limited "sine" (by simp) 440 8000 0 (by norm_num)
      (by norm_num) 1 hne⟩

/-! ### Claim C10: `reconstructDAC` source accesses are in bounds -/

/-- Claim C10: for a non-empty source and positive rates, every output index
`i < Nout` maps to a source index `n0 = ⌊(i/fsOut)·fsIn⌋` inside
`[0, q.length)`, so the silence branch of `reconstructDAC` is never taken. -/
theorem reconstructDAC_index_in_bounds (q : List ℝ) (fsIn fsOut : ℝ)
    (hq : q ≠ []) (hin : 0 < fsIn) (hout : 0 < fsOut) (i : ℕ)
    (hi : i < dacNout q.length fsIn fsOut) :
    0 ≤ dacIndex i fsIn fsOut ∧ dacIndex i fsIn fsOut < (q.length : ℤ) := by
  constructor
  · apply Int.floor_nonneg.mpr
    positivity
  · rw [dacIndex, Int.floor_lt]
    have h1 : (i : ℤ) < ⌊(q.length : ℝ) / fsIn * fsOut⌋ := by
      unfold dacNout at hi
      omega
    have h2 : (i : ℝ) < (q.length : ℝ) / fsIn * fsOut := by
      calc (i : ℝ) < ((⌊(q.length : ℝ) / fsIn * fsOut⌋ : ℤ) : ℝ) := by exact_mod_cast h1
        _ ≤ _ := Int.floor_le _
    have h3 : (i : ℝ) / fsOut * fsIn <
        ((q.length : ℝ) / fsIn * fsOut) / fsOut * fsIn := by gcongr
    have h4 : ((q.length : ℝ) / fsIn * fsOut) / fsOut * fsIn = (q.length : ℝ) := by
      field_simp
      ring
    push_cast
    linarith

/-- Witness for C10 at `q = [1.0]`, `fsIn = 1`, `fsOut = 4`, `i = 2`. -/
theorem reconstructDAC_index_in_bounds_witness :
    ([(1 : ℝ)] ≠ []) ∧ (0 : ℝ) < 1 ∧ (0 : ℝ) < 4 ∧
    2 < dacNout ([(1 : ℝ)].length) 1 4 ∧
    (0 ≤ dacIndex 2 1 4 ∧ dacIndex 2 1 4 < (([(1 : ℝ)].length : ℕ) : ℤ)) := by
  have hN : 2 < dacNout ([(1 : ℝ)].length) 1 4 := by
    simp only [dacNout, List.length_singleton]
    norm_num
  exact ⟨by simp, by norm_num, by norm_num, hN,
    reconstructDAC_index_in_bounds [(1 : ℝ)] 1 4 (by simp) (by norm_num)
      (by norm_num) 2 hN⟩

/-! ### Claims C6 and C7: concrete DAC reconstructions -/

/-- Claim C6: zero-order hold of the single-sample source `[1.0]` at
`fsIn = 1`, `fsOut = 4` yields exactly `⌊(1/1)·4⌋ = 4` samples, each `1.0`. -/
theorem reconstructDAC_zoh_single :
    reconstructDAC [(1 : ℝ)] 1 4 "ZeroOrderHold" = [1, 1, 1, 1] := by
  have hN : dacNout ([(1 : ℝ)].length) 1 4 = 4 := by
    simp only [dacNout, List.length_singleton]
    norm_num
    rfl
  have hlin : strStartsWith "ZeroOrderHold" "Linear" = false := rfl
  simp only [reconstructDAC, hN, hlin]
  have hr : List.range 4 = [0, 1, 2, 3] := rfl
  rw [hr]
  simp only [List.map, dacIndex]
  norm_num

/-- Claim C7: linear interpolation of `[0.0, 1.0]` at `fsIn = 2`, `fsOut = 4`
produces the interpolated samples `[0, 0.5, 1, 1]` (the value is held at the
final source sample), with the midpoint sample exactly `0.5`. -/
theorem reconstructDAC_linear_midpoint :
    reconstructDAC [(0 : ℝ), 1] 2 4 "Linear" = [0, 0.5, 1, 1] ∧
    (reconstructDAC [(0 : ℝ), 1] 2 4 "Linear").getD 1 0 = 0.5 := by
  have hN : dacNout ([(0 : ℝ), 1].length) 2 4 = 4 := by
    simp only [dacNout, List.length_cons, List.length_singleton]
    norm_num
    rfl
  have hlin : strStartsWith "Linear" "Linear" = true := rfl
  have hmain : reconstructDAC [(0 : ℝ), 1] 2 4 "Linear" = [0, 0.5, 1, 1] := by
    simp only [reconstructDAC, hN, hlin]
    have hr : List.range 4 = [0, 1, 2, 3] := rfl
    rw [hr]
    simp only [List.map, dacIndex]
    norm_num
  exact ⟨hmain, by rw [hmain]; norm_num⟩

/-! ### Claim C3: quantization preserves buffer lengths -/

/-- Claim C3: for every input signal, every mode (μ-law or linear PCM at any
bit depth, dithered or not) and every dither-noise stream, `quantizeBuffer`
returns reconstructed-float and error buffers whose lengths equal the input
length. -/
theorem quantizeBuffer_lengths (xs : List ℝ) (o : QuantOpts) (rand : ℕ → ℝ) :
    ∃ r, quantizeBuffer xs o rand = Except.ok r ∧
      r.qFloat.length = xs.length ∧ r.errFloat.length = xs.length := by
  unfold quantizeBuffer
  split_ifs with h
  · exact ⟨_, rfl, by simp, by simp⟩
  · exact ⟨_, rfl, by simp, by simp⟩

/-! ### Claim C8: unsupported bit depths -/

/-- Claim C8 counterexample: with compression `"None"` and the unsupported bit
depth 12, `quantizeBuffer` does not fail: it returns an ordinary quantization
result (labelled "12-bit PCM"), refuting the claim that it fails fast with an
`UnsupportedBitDepth` condition. -/
theorem quantizeBuffer_unsupported_bits_cex :
    (12 : ℤ) ∉ ([8, 16, 24] : List ℤ) ∧
    quantizeBuffer [] ⟨12, false, "None"⟩ (fun _ => 0) =
      Except.ok ⟨[], [], [], "12-bit PCM", none⟩ := by
  exact ⟨by decide, rfl⟩

/-- Claim C8 (amended): `quantizeBuffer` performs no bit-depth validation:
with compression `"None"` and any bit depth outside {8, 16, 24} it still
returns a quantization result, labelling it `"{bits}-bit PCM"` and storing the
codes in the 32-bit array (`pcmWidth = 32`). -/
theorem quantizeBuffer_no_bit_depth_check (xs : List ℝ) (bits : ℤ) (dither : Bool)
    (rand : ℕ → ℝ) (hbits : bits ∉ ([8, 16, 24] : List ℤ)) :
    ∃ r, quantizeBuffer xs ⟨bits, dither, "None"⟩ rand = Except.ok r ∧
      r.encLabel = toString bits ++ "-bit PCM" ∧ pcmWidth bits = 32 := by
  have h8 : bits ≠ 8 := by intro h; exact hbits (by rw [h]; simp)
  have h16 : bits ≠ 16 := by intro h; exact hbits (by rw [h]; simp)
  have hw : pcmWidth bits = 32 := by
    unfold pcmWidth
    rw [if_neg h8, if_neg h16]
  have hμ : strStartsWith "None" "μ" = false := rfl
  unfold quantizeBuffer
  rw [hμ]
  simp only [Bool.false_eq_true, if_false]
  exact ⟨_, rfl, rfl, hw⟩

/-- Witness for the amended C8 theorem at `bits = 12` on the empty buffer. -/
theorem quantizeBuffer_no_bit_depth_check_witness :
    ((12 : ℤ) ∉ ([8, 16, 24] : List ℤ)) ∧
    ∃ r, quantizeBuffer [] ⟨12, false, "None"⟩ (fun _ => 0) = Except.ok r ∧
      r.encLabel = toString (12 : ℤ) ++ "-bit PCM" ∧ pcmWidth 12 = 32 :=
  ⟨by decide, quantizeBuffer_no_bit_depth_check [] 12 false (fun _ => 0) (by decide)⟩

/-! ### Claim C4: `computeSNR` -/

/-- The accumulator loop of `computeSNR` computes the pair of power sums. -/
lemma snr_foldl (x y : List ℝ) (l : List ℕ) (a b : ℝ) :
    l.foldl (fun (acc : ℝ × ℝ) i =>
        (acc.1 + x.getD i 0 * x.getD i 0,
         acc.2 + (x.getD i 0 - y.getD i 0) * (x.getD i 0 - y.getD i 0))) (a, b) =
      (a + (l.map (fun i => x.getD i 0 ^ 2)).sum,
       b + (l.map (fun i => (x.getD i 0 - y.getD i 0) ^ 2)).sum) := by
  induction l generalizing a b with
  | nil => simp
  | cons hd tl ih =>
    rw [List.foldl_cons, ih]
    simp only [List.map_cons, List.sum_cons, Prod.mk.injEq]
    constructor <;> ring

/-- Claim C4: `computeSNR` returns `+∞` exactly when the total squared error
`Σ (x[i] - y[i])²` over `i < x.length` is at most `1e-20` — in particular on
any two identical buffers — and otherwise returns
`10·log10(Σ x[i]² / Σ (x[i] - y[i])²)`. -/
theorem computeSNR_spec :
    (∀ x y : List ℝ,
      computeSNR x y =
        if ((List.range x.length).map (fun i => (x.getD i 0 - y.getD i 0) ^ 2)).sum ≤ 1e-20
        then (⊤ : EReal)
        else ((10 * Real.logb 10
          (((List.range x.length).map (fun i => x.getD i 0 ^ 2)).sum /
            ((List.range x.length).map (fun i => (x.getD i 0 - y.getD i 0) ^ 2)).sum) : ℝ)
          : EReal)) ∧
    (∀ x : List ℝ, computeSNR x x = (⊤ : EReal)) := by
  have hmain : ∀ x y : List ℝ,
      computeSNR x y =
        if ((List.range x.length).map (fun i => (x.getD i 0 - y.getD i 0) ^ 2)).sum ≤ 1e-20
        then (⊤ : EReal)
        else ((10 * Real.logb 10
          (((List.range x.length).map (fun i => x.getD i 0 ^ 2)).sum /
            ((List.range x.length).map (fun i => (x.getD i 0 - y.getD i 0) ^ 2)).sum) : ℝ)
          : EReal) := by
    intro x y
    unfold computeSNR
    rw [snr_foldl x y (List.range x.length) 0 0]
    simp only [zero_add]
  refine ⟨hmain, fun x => ?_⟩
  rw [hmain x x]
  have hz : ((List.range x.length).map
      (fun i => (x.getD i 0 - x.getD i 0) ^ 2)).sum = 0 := by
    apply List.sum_eq_zero
    intro v hv
    obtain ⟨i, -, hvi⟩ := List.mem_map.mp hv
    rw [← hvi]
    ring
  rw [hz]
  norm_num

/-! ### Claims C2 and C5: the μ-law companding path -/

/-- Formalisation of claim C2's byte formula, following the spec's words:
`round((sign(clamp(x,-1,1)) · ln(1+255·|clamp(x,-1,1)|)/ln(256) + 1) × 127.5)`
clamped to `[0, 255]`. -/
def specMuLawByte (x : ℝ) : ℤ :=
  clampZ (round ((Real.sign (clamp x (-1) 1) *
    (Real.log (1 + 255 * |clamp x (-1) 1|) / Real.log 256) + 1) * 127.5)) 0 255

/-- Formalisation of claim C2's decoding formula, following the spec's words:
invert the companding law on `y = byte/127.5 - 1`, i.e.
`sign(y) · (256^|y| - 1)/255`. -/
def specMuLawInv (b : ℤ) : ℝ :=
  Real.sign ((b : ℝ) / 127.5 - 1) * (((256 : ℝ) ^ |(b : ℝ) / 127.5 - 1| - 1) / 255)

/-- `clamp` is the identity on values already inside the interval. -/
lemma clamp_of_mem {x lo hi : ℝ} (h1 : lo ≤ x) (h2 : x ≤ hi) : clamp x lo hi = x := by
  unfold clamp
  rw [max_eq_right h1, min_eq_right h2]

/-- The source's μ-law encoder agrees with the claim's byte formula for every
input sample (the only difference, the sign convention at 0, is cancelled by
the vanishing logarithm). -/
lemma muLawEncode_eq_spec (x : ℝ) : muLawEncode x = specMuLawByte x := by
  simp only [muLawEncode, specMuLawByte]
  have h256 : (1 : ℝ) + 255 = 256 := by norm_num
  rw [h256]
  rcases lt_trichotomy (clamp x (-1) 1) 0 with h | h | h
  · rw [if_pos h, Real.sign_of_neg h]
  · rw [if_neg (not_lt.mpr (le_of_eq h.symm)), h]
    simp
  · rw [if_neg (not_lt.mpr h.le), Real.sign_of_pos h]

/-- The μ-law encoder always produces a byte in `[0, 255]`. -/
lemma muLawEncode_bounds (x : ℝ) : 0 ≤ muLawEncode x ∧ muLawEncode x ≤ 255 := by
  unfold muLawEncode clampZ
  constructor
  · exact le_min (by norm_num) (le_max_left 0 _)
  · exact min_le_left _ _

/-- `256 ^ t` lies in `[1, 256]` for `t ∈ [0, 1]`. -/
lemma rpow_256_bounds {t : ℝ} (h0 : 0 ≤ t) (h1 : t ≤ 1) :
    1 ≤ (256 : ℝ) ^ t ∧ (256 : ℝ) ^ t ≤ 256 := by
  constructor
  · calc (1 : ℝ) = (256 : ℝ) ^ (0 : ℝ) := (Real.rpow_zero _).symm
      _ ≤ (256 : ℝ) ^ t := Real.rpow_le_rpow_of_exponent_le (by norm_num) h0
  · calc (256 : ℝ) ^ t ≤ (256 : ℝ) ^ (1 : ℝ) :=
        Real.rpow_le_rpow_of_exponent_le (by norm_num) h1
      _ = 256 := Real.rpow_one _

/-- For a byte in `[0, 255]`, the source's decoder (which clamps its output)
agrees with the claim's un-clamped inverse-companding formula. -/
lemma muLawDecode_eq_spec {b : ℤ} (h0 : 0 ≤ b) (h255 : b ≤ 255) :
    muLawDecode b = specMuLawInv b := by
  simp only [muLawDecode, signMuLawInverse, specMuLawInv]
  have h256 : (1 : ℝ) + 255 = 256 := by norm_num
  rw [h256]
  set y : ℝ := (b : ℝ) / 127.5 - 1 with hy
  have hb0 : (0 : ℝ) ≤ (b : ℝ) := by exact_mod_cast h0
  have hb255 : (b : ℝ) ≤ 255 := by exact_mod_cast h255
  have hdiv0 : (0 : ℝ) ≤ (b : ℝ) / 127.5 := by positivity
  have hdiv2 : (b : ℝ) / 127.5 ≤ 2 := by
    rw [div_le_iff₀ (by norm_num : (0 : ℝ) < 127.5)]
    linarith
  have hylo : -1 ≤ y := by rw [hy]; linarith
  have hyhi : y ≤ 1 := by rw [hy]; linarith
  have hay0 : 0 ≤ |y| := abs_nonneg y
  have hay1 : |y| ≤ 1 := abs_le.mpr ⟨hylo, hyhi⟩
  obtain ⟨hr1, hr256⟩ := rpow_256_bounds hay0 hay1
  have hA0 : 0 ≤ ((256 : ℝ) ^ |y| - 1) / 255 := by linarith [hr1]
  have hA1 : ((256 : ℝ) ^ |y| - 1) / 255 ≤ 1 := by linarith [hr256]
  rcases lt_trichotomy y 0 with h | h | h
  · rw [if_pos h, Real.sign_of_neg h]
    exact clamp_of_mem (by nlinarith) (by nlinarith)
  · rw [if_neg (not_lt.mpr (le_of_eq h.symm)), h]
    norm_num [Real.sign_zero, Real.rpow_zero, clamp]
  · rw [if_neg (not_lt.mpr h.le), Real.sign_of_pos h]
    exact clamp_of_mem (by nlinarith) (by nlinarith)

/-- Claim C2 (amended): in the μ-law path of `quantizeBuffer`, every encoded
byte matches the claim's companding formula and every reconstructed sample is
the inverse companding of its byte; the error sample, however, equals the
*clamped* input minus the reconstruction (`clamp(x,-1,1) - xRec`), which
coincides with `original - reconstructed` only for inputs already in
`[-1, 1]`; see the counterexample at `x = 2`. -/
theorem quantizeBuffer_mulaw_spec (xs : List ℝ) (o : QuantOpts) (rand : ℕ → ℝ)
    (h : strStartsWith o.compression "μ" = true) :
    ∃ r, quantizeBuffer xs o rand = Except.ok r ∧
      r.pcm = xs.map specMuLawByte ∧
      r.qFloat = xs.map (fun x => specMuLawInv (specMuLawByte x)) ∧
      r.errFloat = xs.map (fun x => clamp x (-1) 1 - specMuLawInv (specMuLawByte x)) := by
  have hsample : ∀ x : ℝ, muLawDecode (muLawEncode x) = specMuLawInv (specMuLawByte x) := by
    intro x
    obtain ⟨h0, h255⟩ := muLawEncode_bounds x
    rw [muLawDecode_eq_spec h0 h255, muLawEncode_eq_spec]
  unfold quantizeBuffer
  rw [if_pos h]
  refine ⟨_, rfl, ?_, ?_, ?_⟩
  · exact List.map_congr_left fun x _ => muLawEncode_eq_spec x
  · exact List.map_congr_left fun x _ => hsample x
  · exact List.map_congr_left fun x _ => by rw [hsample x]

/-- Witness for the amended C2 theorem on the buffer `[0.5]` with compression
`"μ-law"`. -/
theorem quantizeBuffer_mulaw_spec_witness :
    strStartsWith "μ-law" "μ" = true ∧
    ∃ r, quantizeBuffer [(0.5 : ℝ)] ⟨8, false, "μ-law"⟩ (fun _ => 0) = Except.ok r ∧
      r.pcm = [(0.5 : ℝ)].map specMuLawByte ∧
      r.qFloat = [(0.5 : ℝ)].map (fun x => specMuLawInv (specMuLawByte x)) ∧
      r.errFloat = [(0.5 : ℝ)].map
        (fun x => clamp x (-1) 1 - specMuLawInv (specMuLawByte x)) :=
  ⟨rfl, quantizeBuffer_mulaw_spec [(0.5 : ℝ)] ⟨8, false, "μ-law"⟩ (fun _ => 0) rfl⟩

/-- The μ-law encoder sends the (clamped) sample `2` to byte 255. -/
lemma muLawEncode_two : muLawEncode 2 = 255 := by
  simp only [muLawEncode]
  have hc : clamp 2 (-1) 1 = 1 := by unfold clamp; norm_num
  rw [hc]
  have hlog : Real.log (1 + 255 * |(1 : ℝ)|) / Real.log (1 + 255) = 1 := by
    rw [abs_one, mul_one]
    exact div_self (ne_of_gt (Real.log_pos (by norm_num)))
  rw [if_neg (by norm_num), hlog]
  have hround : round (((1 : ℝ) * 1 + 1) * 127.5) = 255 := by
    rw [round_eq]
    norm_num
  rw [hround]
  unfold clampZ
  norm_num

/-- The μ-law decoder sends byte 255 to exactly 1. -/
lemma muLawDecode_255 : muLawDecode 255 = 1 := by
  simp only [muLawDecode, signMuLawInverse]
  have hy : ((255 : ℤ) : ℝ) / 127.5 - 1 = 1 := by norm_num
  rw [hy]
  have h256 : (1 : ℝ) + 255 = 256 := by norm_num
  rw [if_neg (by norm_num), h256, abs_one, Real.rpow_one]
  rw [show (1 : ℝ) * ((256 - 1) / 255) = 1 by norm_num]
  exact clamp_of_mem (by norm_num) (by norm_num)

/-- Claim C2 counterexample: for the out-of-range input sample `2.0`, the
μ-law path reconstructs `1.0` and stores the error `0` (clamped input minus
reconstruction), while the claim's `original - reconstructed` would be `1`:
the error clause of the claim as stated is false. -/
theorem quantizeBuffer_mulaw_err_cex :
    ∃ r, quantizeBuffer [(2 : ℝ)] ⟨8, false, "μ-law"⟩ (fun _ => 0) = Except.ok r ∧
      r.qFloat = [1] ∧ r.errFloat = [0] ∧
      r.errFloat.headI ≠ (2 : ℝ) - r.qFloat.headI := by
  have hc : clamp 2 (-1) 1 = 1 := by unfold clamp; norm_num
  have hdec : muLawDecode (muLawEncode 2) = 1 := by rw [muLawEncode_two, muLawDecode_255]
  refine ⟨_, rfl, ?_, ?_, ?_⟩
  · simp only [List.map_cons, List.map_nil, hdec]
  · simp only [List.map_cons, List.map_nil, hdec, hc]
    norm_num
  · simp only [List.map_cons, List.map_nil, hdec, hc, List.headI]
    norm_num

/-- The μ-law encoder sends the sample `0` to byte 128
(`round((0+1)·127.5) = round(127.5) = 128`). -/
lemma muLawEncode_zero : muLawEncode 0 = 128 := by
  simp only [muLawEncode]
  have hc : clamp 0 (-1) 1 = 0 := by unfold clamp; norm_num
  rw [hc]
  have hlog : Real.log (1 + 255 * |(0 : ℝ)|) / Real.log (1 + 255) = 0 := by
    simp
  rw [if_neg (by norm_num), hlog]
  have hround : round (((1 : ℝ) * 0 + 1) * 127.5) = 128 := by
    rw [round_eq]
    norm_num
  rw [hround]
  unfold clampZ
  norm_num

/-- The μ-law decoding of byte 128 is `(256^(1/255) - 1)/255`, which lies in
`[0, 1e-3]`. -/
lemma muLawDecode_128_small : 0 ≤ muLawDecode 128 ∧ muLawDecode 128 ≤ 1e-3 := by
  simp only [muLawDecode, signMuLawInverse]
  have hy : ((128 : ℤ) : ℝ) / 127.5 - 1 = 1 / 255 := by norm_num
  have h256 : (1 : ℝ) + 255 = 256 := by norm_num
  rw [hy, h256, if_neg (by norm_num), abs_of_nonneg (by norm_num : (0 : ℝ) ≤ 1 / 255)]
  have hup : (256 : ℝ) ^ ((1 : ℝ) / 255) ≤ 1.2 := by
    have h1 : (256 : ℝ) = (2 : ℝ) ^ (8 : ℝ) := by
      rw [show (8 : ℝ) = ((8 : ℕ) : ℝ) by norm_num, Real.rpow_natCast]
      norm_num
    have h2 : (256 : ℝ) ^ ((1 : ℝ) / 255) = (2 : ℝ) ^ ((8 : ℝ) * (1 / 255)) := by
      rw [h1, ← Real.rpow_mul (by norm_num : (0 : ℝ) ≤ 2)]
    have h3 : (2 : ℝ) ^ ((8 : ℝ) * (1 / 255)) ≤ (2 : ℝ) ^ ((1 : ℝ) / 4) :=
      Real.rpow_le_rpow_of_exponent_le (by norm_num) (by norm_num)
    have h5 : (2 : ℝ) ≤ (1.2 : ℝ) ^ (4 : ℝ) := by
      rw [show (4 : ℝ) = ((4 : ℕ) : ℝ) by norm_num, Real.rpow_natCast]
      norm_num
    have h4 : (2 : ℝ) ^ ((1 : ℝ) / 4) ≤ 1.2 := by
      calc (2 : ℝ) ^ ((1 : ℝ) / 4) ≤ ((1.2 : ℝ) ^ (4 : ℝ)) ^ ((1 : ℝ) / 4) :=
            Real.rpow_le_rpow (by norm_num) h5 (by norm_num)
        _ = (1.2 : ℝ) ^ ((4 : ℝ) * (1 / 4)) := by
            rw [← Real.rpow_mul (by norm_num : (0 : ℝ) ≤ 1.2)]
        _ = 1.2 := by norm_num [Real.rpow_one]
    rw [h2]
    exact le_trans h3 h4
  have hlo : (1 : ℝ) ≤ (256 : ℝ) ^ ((1 : ℝ) / 255) :=
    (rpow_256_bounds (by norm_num) (by norm_num)).1
  have hA0 : (0 : ℝ) ≤ ((256 : ℝ) ^ ((1 : ℝ) / 255) - 1) / 255 := by linarith
  have hA1 : ((256 : ℝ) ^ ((1 : ℝ) / 255) - 1) / 255 ≤ 1e-3 := by linarith
  rw [one_mul, clamp_of_mem (by linarith) (by linarith)]
  exact ⟨hA0, hA1⟩

/-- Claim C5: the μ-law round trip of the sample `0.0` through
`quantizeBuffer` reconstructs a value within `1e-3` of `0.0`. -/
theorem quantizeBuffer_mulaw_roundtrip_zero :
    ∃ r, quantizeBuffer [(0 : ℝ)] ⟨8, false, "μ-law"⟩ (fun _ => 0) = Except.ok r ∧
      |r.qFloat.headI - 0| ≤ 1e-3 := by
  obtain ⟨h0, h1⟩ := muLawDecode_128_small
  refine ⟨_, rfl, ?_⟩
  simp only [List.map_cons, List.map_nil, List.headI, muLawEncode_zero]
  rw [sub_zero, abs_of_nonneg h0]
  exact h1

/-! ### Claim C9: determinism of the renderer on standard shapes -/

/-- The contribution of a wave whose type is neither `"piano"` nor `"violin"`
does not depend on the random stream: only the violin branch of `waveVoice`
consumes random draws. -/
lemma waveVoice_rand_irrelevant (sr duration : ℝ) (aa : Bool) (w : WaveSpec)
    (hpiano : w.type ≠ "piano") (hviolin : w.type ≠ "violin")
    (r1 r2 : ℕ → ℝ) (i : ℕ) :
    waveVoice sr duration aa w r1 i = waveVoice sr duration aa w r2 i := by
  unfold waveVoice
  simp only [if_neg hviolin]

/-- Claim C9: rendering the same duration, sample rate, anti-alias flag,
filter setting and wave list twice produces identical output whenever the wave
list contains only standard shapes (no piano or violin voices) — the output
does not depend on the random streams at all. -/
theorem renderOfflineFromWaves_deterministic (duration sampleRate : ℝ)
    (waves : List WaveSpec) (antiAliasMaxHarmonics : Bool)
    (filter : Option FilterSpec)
    (h : ∀ w ∈ waves, w.type ≠ "piano" ∧ w.type ≠ "violin")
    (r1 r2 : ℕ → ℕ → ℝ) :
    renderOfflineFromWaves duration sampleRate waves antiAliasMaxHarmonics filter r1 =
      renderOfflineFromWaves duration sampleRate waves antiAliasMaxHarmonics filter r2 := by
  have hmixed :
      (List.range (⌈duration * sampleRate⌉).toNat).map (fun (i : ℕ) =>
        (waves.enum.map (fun jw =>
          waveVoice sampleRate duration antiAliasMaxHarmonics jw.2 (r1 jw.1) i)).sum) =
      (List.range (⌈duration * sampleRate⌉).toNat).map (fun (i : ℕ) =>
        (waves.enum.map (fun jw =>
          waveVoice sampleRate duration antiAliasMaxHarmonics jw.2 (r2 jw.1) i)).sum) := by
    apply List.map_congr_left
    intro i _
    congr 1
    apply List.map_congr_left
    intro jw hjw
    have hw : jw.2 ∈ waves := by
      rw [List.mem_enum_iff_getElem?] at hjw
      obtain ⟨hlt, hget⟩ := List.getElem?_eq_some.mp hjw
      exact hget ▸ List.getElem_mem hlt
    exact waveVoice_rand_irrelevant sampleRate duration antiAliasMaxHarmonics jw.2
      (h jw.2 hw).1 (h jw.2 hw).2 (r1 jw.1) (r2 jw.1) i
  simp only [renderOfflineFromWaves]
  rw [hmixed]

/-- Witness for C9: a single sine wave at 440 Hz, duration 1 s, sample rate
8000, no filter, compared across two different random streams. -/
theorem renderOfflineFromWaves_deterministic_witness :
    (∀ w ∈ [WaveSpec.mk "sine" 0.5 440 0], w.type ≠ "piano" ∧ w.type ≠ "violin") ∧
    renderOfflineFromWaves 1 8000 [WaveSpec.mk "sine" 0.5 440 0] true none
        (fun _ _ => 0) =
      renderOfflineFromWaves 1 8000 [WaveSpec.mk "sine" 0.5 440 0] true none
        (fun _ n => (n : ℝ)) := by
  have h : ∀ w ∈ [WaveSpec.mk "sine" 0.5 440 0],
      w.type ≠ "piano" ∧ w.type ≠ "violin" := by
    intro w hw
    rw [List.mem_singleton] at hw
    subst hw
    exact ⟨by decide, by decide⟩
  exact ⟨h, renderOfflineFromWaves_deterministic 1 8000 _ true none h _ _⟩

end

end AudioLab
